import Mathlib

/-!
Verification of the config-generator export pipeline (ConfigForm component).

The definitions below are a shallow embedding of the C-header export path of
the source file: the value model, `escapeHtml`, `isValidCIdentifier`, the
two-tier header generation inside `generateCHeader`, and the four
highlighting substitutions that `generateCHeader` applies to the raw header
text before returning it.  JavaScript strings are modelled as `List Char`
(with `String` wrappers at the outer interface), records as association
lists in insertion order, and each global regex replacement as a
left-to-right transducer with the same matching semantics.
-/

set_option maxHeartbeats 1000000
set_option maxRecDepth 100000

/-- A JavaScript value as it can appear in the value mapping: boolean,
number, string, or null (unset). -/
inductive Value where
  | VBool (b : Bool)
  | VNum (n : Int)
  | VStr (s : String)
  | VNull
deriving DecidableEq, Repr

open Value

/-- A schema field descriptor `{type, default?, description?}`;
`default := none` models an absent (`undefined`) default. -/
structure FieldDesc where
  type : String
  default : Option Value := none
  description : Option String := none
deriving DecidableEq, Repr

/-- A schema: key names mapped to field descriptors, in insertion order. -/
abbrev Schema := List (String × FieldDesc)

/-- A value mapping: key names mapped to current values, in insertion order. -/
abbrev ValueMap := List (String × Value)

/-- JavaScript `String(v)` / template-literal interpolation of a value. -/
def valueText : Value → String
  | VBool b => if b then "true" else "false"
  | VNum n => toString n
  | VStr s => s
  | VNull => "null"

/-- JavaScript truthiness of a value, as used by `val ? 1 : 0`. -/
def truthy : Value → Bool
  | VBool b => b
  | VNum n => n ≠ 0
  | VStr s => s ≠ ""
  | VNull => false

/-- Replace every occurrence of the single character `c` by the string `r`;
this is `.replace(/c/g, r)` for a one-character pattern. -/
def replaceChar (c : Char) (r : List Char) : List Char → List Char
  | [] => []
  | x :: xs => (if x = c then r else [x]) ++ replaceChar c r xs

/-- Source `escapeHtml`: escape `&` first, then `<`, `>`, `"`, `'`,
as five sequential global replacements (list-of-characters form). -/
def escapeHtmlL (s : List Char) : List Char :=
  replaceChar '\'' "&#39;".data
    (replaceChar '"' "&quot;".data
      (replaceChar '>' "&gt;".data
        (replaceChar '<' "&lt;".data
          (replaceChar '&' "&amp;".data s))))

/-- Source `escapeHtml` on `String`. -/
def escapeHtml (s : String) : String := ⟨escapeHtmlL s.data⟩

/-- Character class `[A-Za-z_]` (valid C identifier start). -/
def isIdentStart (c : Char) : Bool := c.isLower || c.isUpper || c == '_'

/-- Character class `[A-Za-z0-9_]` (valid C identifier continuation). -/
def isIdentChar (c : Char) : Bool := isIdentStart c || c.isDigit

/-- Source `isValidCIdentifier`: full match of `^[a-zA-Z_][a-zA-Z0-9_]*$`. -/
def isValidCIdentifier (name : String) : Bool :=
  match name.data with
  | [] => false
  | c :: rest => isIdentStart c && rest.all isIdentChar

/-- The C string-literal escaping used inside `generateCHeader`:
`.replace(/\\/g, '\\\\').replace(/"/g, '\\"')` — backslash first, then
double quote. -/
def cEscapeL (v : List Char) : List Char :=
  replaceChar '"' ['\\', '"'] (replaceChar '\\' ['\\', '\\'] v)

/-- C string-literal escaping on `String`. -/
def cEscape (v : String) : String := ⟨cEscapeL v.data⟩

/-- Tier-1 line for one value-mapping entry, translated from the
`Object.keys(v).forEach` body of `generateCHeader`: skip (return `none`)
on an invalid C identifier or a key with no schema descriptor, otherwise
emit `#define <key> <encoded value>` by declared type. -/
def tier1Line (schema : Schema) (kv : String × Value) : Option String :=
  let k := kv.1
  let val := kv.2
  if ¬ isValidCIdentifier k then none
  else
    match List.lookup k schema with
    | none => none
    | some schemaEntry =>
      if schemaEntry.type = "boolean" then
        some ("#define " ++ k ++ " " ++ (if truthy val then "1" else "0"))
      else if schemaEntry.type = "string" then
        some ("#define " ++ k ++ " \"" ++ cEscape (valueText val) ++ "\"")
      else
        some ("#define " ++ k ++ " " ++ valueText val)

/-- Tier-2 lines for one schema entry, translated from the
`Object.keys(props.schema).forEach` body of `generateCHeader`: if a default
is declared (`def !== undefined`, falsy values included) and the key is a
valid C identifier, emit the guarded block `#ifndef` / `#define` / `#endif`;
otherwise nothing. -/
def tier2Block (k : String) (schemaEntry : FieldDesc) : List String :=
  match schemaEntry.default with
  | none => []
  | some d =>
    if ¬ isValidCIdentifier k then []
    else
      ["#ifndef " ++ k,
       (if schemaEntry.type = "boolean" then
          "#define " ++ k ++ " " ++ (if truthy d then "1" else "0")
        else if schemaEntry.type = "string" then
          "#define " ++ k ++ " \"" ++ cEscape (valueText d) ++ "\""
        else
          "#define " ++ k ++ " " ++ valueText d),
       "#endif"]

/-- The fixed preamble lines of the generated header, including the
variant-name comment line built with `escapeHtml(props.variantName or
'variant')`. -/
def headerPreamble (variantName : String) : List String :=
  ["#pragma once",
   "// Auto-generated header from Config Editor",
   "// Variant: " ++ escapeHtml (if variantName = "" then "variant" else variantName),
   "",
   "// Variant-specific defines (highest priority)"]

/-- The two fixed lines between Tier 1 and Tier 2. -/
def tier2Header : List String :=
  ["", "// Common defaults (only applied if not defined by variant)"]

/-- All lines pushed by `generateCHeader` before highlighting: preamble,
then Tier-1 variant defines in value-mapping order, then the Tier-2 header
comment, then the `#ifndef`-guarded defaults in schema order. -/
def rawLines (schema : Schema) (values : ValueMap) (variantName : String) : List String :=
  headerPreamble variantName
    ++ values.filterMap (tier1Line schema)
    ++ tier2Header
    ++ (schema.map (fun kd => tier2Block kd.1 kd.2)).flatten

/-- The raw header text: `lines.join('\n')` in the source. -/
def rawHeader (schema : Schema) (values : ValueMap) (variantName : String) : String :=
  String.intercalate "\n" (rawLines schema values variantName)

example : rawHeader [("A", ⟨"number", some (VNum 1), none⟩)] [("A", VNum 2)] "v" =
    "#pragma once\n// Auto-generated header from Config Editor\n// Variant: v\n\n// Variant-specific defines (highest priority)\n#define A 2\n\n// Common defaults (only applied if not defined by variant)\n#ifndef A\n#define A 1\n#endif" := by
  decide

/-- Decidable prefix test on character lists. -/
def isPre : List Char → List Char → Bool
  | [], _ => true
  | _ :: _, [] => false
  | p :: ps, c :: cs => p == c && isPre ps cs

/-- Opening tag inserted by the comment substitution. -/
def commentSpanOpen : List Char := "<span class=\"comment\">".data

/-- Closing tag `</span>` shared by all four substitutions. -/
def spanClose : List Char := "</span>".data

/-- Transducer for `.replace(/(\/\/.*$)/gm, '<span class="comment">$1</span>')`:
outside a comment (`false`) a `//` opens a span that runs to the end of the
line; inside a comment (`true`) the close tag is emitted before the newline
or at the end of the text. -/
def commentGo : Bool → List Char → List Char
  | false, [] => []
  | false, '/' :: '/' :: rest => commentSpanOpen ++ '/' :: '/' :: commentGo true rest
  | false, c :: rest => c :: commentGo false rest
  | true, [] => spanClose
  | true, '\n' :: rest => spanClose ++ '\n' :: commentGo false rest
  | true, c :: rest => c :: commentGo true rest

/-- The comment-highlighting pass. -/
def commentPass (s : List Char) : List Char := commentGo false s

/-- Opening tag inserted by the keyword substitution. -/
def keywordSpanOpen : List Char := "<span class=\"keyword\">".data

/-- Transducer for `.replace(/(#pragma|#define|#ifndef|#endif)/gm, '<span
class="keyword">$1</span>')`: the four literal alternatives are matched at
any position (the regex carries no `^` anchor), leftmost first. -/
def keywordPass : List Char → List Char
  | [] => []
  | '#' :: 'p' :: 'r' :: 'a' :: 'g' :: 'm' :: 'a' :: rest =>
      keywordSpanOpen ++ "#pragma".data ++ spanClose ++ keywordPass rest
  | '#' :: 'd' :: 'e' :: 'f' :: 'i' :: 'n' :: 'e' :: rest =>
      keywordSpanOpen ++ "#define".data ++ spanClose ++ keywordPass rest
  | '#' :: 'i' :: 'f' :: 'n' :: 'd' :: 'e' :: 'f' :: rest =>
      keywordSpanOpen ++ "#ifndef".data ++ spanClose ++ keywordPass rest
  | '#' :: 'e' :: 'n' :: 'd' :: 'i' :: 'f' :: rest =>
      keywordSpanOpen ++ "#endif".data ++ spanClose ++ keywordPass rest
  | c :: rest => c :: keywordPass rest

/-- Opening tag inserted by the string substitution. -/
def stringSpanOpen : List Char := "<span class=\"string\">".data

/-- Locate the closing `&quot;` of `/&quot;([^&]*)&quot;/`: returns the
`[^&]*` body and the text after the closing entity, or `none` when the next
`&` does not start `&quot;` (backtracking cannot rescue a shorter body, as
`[^&]*` can only end at a `&`). -/
def findClose : List Char → Option (List Char × List Char)
  | [] => none
  | c :: rest =>
    if c = '&' then
      if isPre "quot;".data rest then some ([], rest.drop 5) else none
    else
      match findClose rest with
      | some (b, a) => some (c :: b, a)
      | none => none

/-- Transducer for `.replace(/&quot;([^&]*)&quot;/gm, '<span
class="string">&quot;$1&quot;</span>')`: in normal mode (`false`) an
opening `&quot;` with a reachable closing `&quot;` emits the whole wrapped
literal, then skip mode (`true`) consumes the already-emitted body up to and
including the closing entity. -/
def stringGo : Bool → List Char → List Char
  | _, [] => []
  | false, '&' :: 'q' :: 'u' :: 'o' :: 't' :: ';' :: rest =>
    match findClose rest with
    | some (b, _) =>
        stringSpanOpen ++ "&quot;".data ++ b ++ "&quot;".data ++ spanClose ++ stringGo true rest
    | none => '&' :: 'q' :: 'u' :: 'o' :: 't' :: ';' :: stringGo false rest
  | false, c :: rest => c :: stringGo false rest
  | true, '&' :: 'q' :: 'u' :: 'o' :: 't' :: ';' :: rest => stringGo false rest
  | true, _ :: rest => stringGo true rest

/-- Opening tag inserted by the number substitution. -/
def numberSpanOpen : List Char := "<span class=\"number\">".data

/-- JavaScript word character `[A-Za-z0-9_]`, as used by `\b`. -/
def isWordChar (c : Char) : Bool := c.isLower || c.isUpper || c.isDigit || c == '_'

/-- Whether a word boundary follows a digit run (end of text or a non-word
character). -/
def boundaryAfter : List Char → Bool
  | [] => true
  | d :: _ => ! isWordChar d

/-- Scanner state for the number substitution: normal scanning (recording
whether the previous character was a word character) or skipping the digits
already emitted inside a wrap. -/
inductive NMode where
  | norm (prevWord : Bool)
  | skip
deriving DecidableEq, Repr

/-- Transducer for `.replace(/\b(\d+)\b/gm, '<span class="number">$1</span>')`:
a maximal digit run delimited by word boundaries on both sides is wrapped;
runs flanked by a word character on either side are left alone. -/
def numGo : NMode → List Char → List Char
  | _, [] => []
  | NMode.skip, c :: rest =>
      if c.isDigit then numGo NMode.skip rest
      else c :: numGo (NMode.norm (isWordChar c)) rest
  | NMode.norm prevWord, c :: rest =>
      if c.isDigit && ! prevWord then
        if boundaryAfter (rest.dropWhile Char.isDigit) then
          numberSpanOpen ++ c :: rest.takeWhile Char.isDigit ++ spanClose ++ numGo NMode.skip rest
        else
          c :: numGo (NMode.norm true) rest
      else
        c :: numGo (NMode.norm (isWordChar c)) rest

/-- The number-highlighting pass. -/
def numberPass (s : List Char) : List Char := numGo (NMode.norm false) s

/-- The full highlighting chain of `generateCHeader`: HTML-escape, then the
comment, keyword, string and number substitutions, in source order. -/
def highlightL (raw : List Char) : List Char :=
  numberPass (stringGo false (keywordPass (commentPass (escapeHtmlL raw))))

/-- Highlighting on `String`. -/
def highlight (raw : String) : String := ⟨highlightL raw.data⟩

/-- Source `generateCHeader`: builds the raw header lines, joins them, and
returns the escaped and highlighted text. -/
def generateCHeader (schema : Schema) (values : ValueMap) (variantName : String) : String :=
  highlight (rawHeader schema values variantName)

/-- Source `exportCHeader`: the payload handed to the download sink and the
suggested filename `<variantName or "variant">_final_cfg.h`. -/
def exportedCHeader (schema : Schema) (values : ValueMap) (variantName : String) :
    String × String :=
  (generateCHeader schema values variantName,
   (if variantName = "" then "variant" else variantName) ++ "_final_cfg.h")

/-- Decidable substring test on character lists. -/
def containsSub (pat : List Char) : List Char → Bool
  | [] => isPre pat []
  | c :: rest => isPre pat (c :: rest) || containsSub pat rest

/-- Decidable substring test on strings. -/
def containsStr (pat s : String) : Bool := containsSub pat.data s.data

example : highlight "'" = "&#<span class=\"number\">39</span>;" := by decide
example : highlight "x #define y" = "x <span class=\"keyword\">#define</span> y" := by decide
example : containsStr "<script>" (highlight "<script>alert(1)</script>") = false := by decide
example : highlight "A \"hi\"" =
    "A <span class=\"string\">&quot;hi&quot;</span>" := by decide
example : highlight "// c 12" =
    "<span class=\"comment\">// c <span class=\"number\">12</span></span>" := by decide

/-! ### Infrastructure: prefix and substring lemmas -/

theorem isPre_append_self (p t : List Char) : isPre p (p ++ t) = true := by
  induction p with
  | nil => rfl
  | cons x xs ih => simp [isPre, ih]

theorem isPre_iff_append (p s : List Char) : isPre p s = true ↔ ∃ t, s = p ++ t := by
  constructor
  · induction p generalizing s with
    | nil => exact fun _ => ⟨s, rfl⟩
    | cons x xs ih =>
      intro h
      cases s with
      | nil => simp [isPre] at h
      | cons c cs =>
        simp only [isPre, Bool.and_eq_true, beq_iff_eq] at h
        obtain ⟨rfl, h2⟩ := h
        obtain ⟨t, rfl⟩ := ih cs h2
        exact ⟨t, rfl⟩
  · rintro ⟨t, rfl⟩
    exact isPre_append_self p t

theorem isPre_of_append_isPre (p q s : List Char) :
    isPre (p ++ q) s = true → isPre p s = true := by
  induction p generalizing s with
  | nil => intro _; rfl
  | cons x xs ih =>
    cases s with
    | nil => intro h; simp [isPre] at h
    | cons c cs =>
      simp only [List.cons_append, isPre, Bool.and_eq_true]
      rintro ⟨h1, h2⟩
      exact ⟨h1, ih cs h2⟩

theorem containsSub_cons (pat : List Char) (c : Char) (rest : List Char) :
    containsSub pat (c :: rest) = (isPre pat (c :: rest) || containsSub pat rest) := rfl

theorem containsSub_of_isPre {pat s : List Char} (h : isPre pat s = true) :
    containsSub pat s = true := by
  cases s with
  | nil => cases pat with
    | nil => rfl
    | cons p ps => simp [isPre] at h
  | cons c cs => simp [containsSub_cons, h]

theorem containsSub_append_right {pat b : List Char} (a : List Char)
    (h : containsSub pat b = true) : containsSub pat (a ++ b) = true := by
  induction a with
  | nil => exact h
  | cons x a' ih => simp [containsSub_cons, ih]

theorem containsSub_mono_pat {p q s : List Char}
    (h : containsSub (p ++ q) s = true) : containsSub p s = true := by
  induction s with
  | nil =>
    cases p with
    | nil => rfl
    | cons x xs => cases q <;> simp [containsSub, isPre] at h
  | cons c cs ih =>
    simp only [containsSub_cons, Bool.or_eq_true] at h ⊢
    rcases h with h | h
    · exact Or.inl (isPre_of_append_isPre p q _ h)
    · exact Or.inr (ih h)

theorem containsSub_append_head_skip {p₀ : Char} {ps : List Char} (a b : List Char)
    (h : p₀ ∉ a) : containsSub (p₀ :: ps) (a ++ b) = containsSub (p₀ :: ps) b := by
  induction a with
  | nil => rfl
  | cons x a' ih =>
    have hx : ¬ (p₀ = x) := fun e => h (by simp [e])
    have ha : p₀ ∉ a' := fun e => h (List.mem_cons_of_mem _ e)
    simp [containsSub_cons, isPre, hx, ih ha]

/-! ### Infrastructure: characterization of `escapeHtml` -/

/-- Per-character form of the HTML escaping (derived, not the source shape). -/
def escChar (x : Char) : List Char :=
  if x = '&' then "&amp;".data
  else if x = '<' then "&lt;".data
  else if x = '>' then "&gt;".data
  else if x = '"' then "&quot;".data
  else if x = '\'' then "&#39;".data
  else [x]

theorem replaceChar_append (c : Char) (r a b : List Char) :
    replaceChar c r (a ++ b) = replaceChar c r a ++ replaceChar c r b := by
  induction a with
  | nil => rfl
  | cons x xs ih => simp [replaceChar, ih]

theorem escapeHtmlL_cons (x : Char) (xs : List Char) :
    escapeHtmlL (x :: xs) = escChar x ++ escapeHtmlL xs := by
  unfold escapeHtmlL
  rw [show replaceChar '&' "&amp;".data (x :: xs)
        = (if x = '&' then "&amp;".data else [x]) ++ replaceChar '&' "&amp;".data xs from rfl]
  rw [replaceChar_append, replaceChar_append, replaceChar_append, replaceChar_append]
  congr 1
  by_cases h1 : x = '&'
  · subst h1; decide
  by_cases h2 : x = '<'
  · subst h2; decide
  by_cases h3 : x = '>'
  · subst h3; decide
  by_cases h4 : x = '"'
  · subst h4; decide
  by_cases h5 : x = '\''
  · subst h5; decide
  simp [replaceChar, escChar, h1, h2, h3, h4, h5]

theorem escapeHtmlL_append (a b : List Char) :
    escapeHtmlL (a ++ b) = escapeHtmlL a ++ escapeHtmlL b := by
  induction a with
  | nil => rfl
  | cons x xs ih => simp [escapeHtmlL_cons, ih]

theorem escapeHtmlL_no_danger (s : List Char) :
    ∀ c ∈ escapeHtmlL s, ¬ (c = '<' ∨ c = '>' ∨ c = '"' ∨ c = '\'') := by
  induction s with
  | nil => intro c hc; simp [escapeHtmlL, replaceChar] at hc
  | cons x xs ih =>
    intro c hc
    rw [escapeHtmlL_cons] at hc
    rcases List.mem_append.mp hc with h | h
    · unfold escChar at h
      split_ifs at h with h1 h2 h3 h4 h5
      · exact (by decide : ∀ y ∈ "&amp;".data, ¬ (y = '<' ∨ y = '>' ∨ y = '"' ∨ y = '\'')) c h
      · exact (by decide : ∀ y ∈ "&lt;".data, ¬ (y = '<' ∨ y = '>' ∨ y = '"' ∨ y = '\'')) c h
      · exact (by decide : ∀ y ∈ "&gt;".data, ¬ (y = '<' ∨ y = '>' ∨ y = '"' ∨ y = '\'')) c h
      · exact (by decide : ∀ y ∈ "&quot;".data, ¬ (y = '<' ∨ y = '>' ∨ y = '"' ∨ y = '\'')) c h
      · exact (by decide : ∀ y ∈ "&#39;".data, ¬ (y = '<' ∨ y = '>' ∨ y = '"' ∨ y = '\'')) c h
      · simp only [List.mem_singleton] at h
        subst h
        rintro (rfl | rfl | rfl | rfl)
        · exact h2 rfl
        · exact h3 rfl
        · exact h4 rfl
        · exact h5 rfl
    · exact ih c h

theorem containsSub_escChar_escapeHtmlL {x : Char} {s : List Char} (hx : x ∈ s) :
    containsSub (escChar x) (escapeHtmlL s) = true := by
  obtain ⟨a, b, rfl⟩ := List.append_of_mem hx
  rw [escapeHtmlL_append, escapeHtmlL_cons]
  exact containsSub_append_right _ (containsSub_of_isPre (isPre_append_self _ _))

theorem containsSub_dblamp_of_mem {s : List Char} (hx : '&' ∈ s) :
    containsSub "&amp;amp;".data (escapeHtmlL (escapeHtmlL s)) = true := by
  obtain ⟨a, b, rfl⟩ := List.append_of_mem hx
  rw [escapeHtmlL_append, escapeHtmlL_append, escapeHtmlL_cons,
      show escChar '&' = "&amp;".data from rfl, escapeHtmlL_append,
      show escapeHtmlL "&amp;".data = "&amp;amp;".data from by decide]
  exact containsSub_append_right _ (containsSub_of_isPre (isPre_append_self _ _))

/-! ### C5: string-literal escaping round-trip -/

/-- Modelled from the spec: the unescaping that reverses the
backslash-then-quote escaping (`\\` back to `\`, `\"` back to `"`); other
characters are passed through. -/
def unescapeC : List Char → List Char
  | [] => []
  | '\\' :: '\\' :: rest => '\\' :: unescapeC rest
  | '\\' :: '"' :: rest => '"' :: unescapeC rest
  | c :: rest => c :: unescapeC rest

theorem cEscapeL_cons (x : Char) (xs : List Char) :
    cEscapeL (x :: xs)
      = (if x = '\\' then ['\\', '\\'] else if x = '"' then ['\\', '"'] else [x])
        ++ cEscapeL xs := by
  unfold cEscapeL
  rw [show replaceChar '\\' ['\\', '\\'] (x :: xs)
        = (if x = '\\' then ['\\', '\\'] else [x]) ++ replaceChar '\\' ['\\', '\\'] xs from rfl]
  rw [replaceChar_append]
  congr 1
  by_cases h1 : x = '\\'
  · subst h1; decide
  by_cases h2 : x = '"'
  · subst h2; decide
  simp [replaceChar, h1, h2]

theorem unescapeC_cons {x : Char} (hx : x ≠ '\\') (L : List Char) :
    unescapeC (x :: L) = x :: unescapeC L := by
  rw [unescapeC.eq_def]
  split <;> simp_all

/-- C5: string-literal encoding round-trips — for every value `v` (in
particular values containing both backslashes and quotes) the
backslash-then-quote escaping of `generateCHeader` is undone exactly by the
spec's reverse unescaping, and the Tier-1 string line wraps the escaped
body in double quotes. -/
theorem c5_encode_string_roundtrip :
    (∀ v : List Char, unescapeC (cEscapeL v) = v)
    ∧ ∀ (k : String) (val : Value),
        tier1Line [(k, ⟨"string", none, none⟩)] (k, val)
          = if isValidCIdentifier k then
              some ("#define " ++ k ++ " \"" ++ cEscape (valueText val) ++ "\"")
            else none := by
  constructor
  · intro v
    induction v with
    | nil => rfl
    | cons x xs ih =>
      rw [cEscapeL_cons]
      by_cases h1 : x = '\\'
      · subst h1
        rw [show unescapeC ((if ('\\' : Char) = '\\' then (['\\', '\\'] : List Char)
              else if ('\\' : Char) = '"' then ['\\', '"'] else ['\\']) ++ cEscapeL xs)
              = '\\' :: unescapeC (cEscapeL xs) from rfl, ih]
      by_cases h2 : x = '"'
      · subst h2
        rw [show unescapeC ((if ('"' : Char) = '\\' then (['\\', '\\'] : List Char)
              else if ('"' : Char) = '"' then ['\\', '"'] else ['"']) ++ cEscapeL xs)
              = '"' :: unescapeC (cEscapeL xs) from rfl, ih]
      · simp only [if_neg h1, if_neg h2, List.singleton_append]
        rw [unescapeC_cons h1, ih]
  · intro k val
    unfold tier1Line
    by_cases hv : isValidCIdentifier k
    · simp [hv, List.lookup]
    · simp [hv]

/-- C1: the claim that the downloaded C header is the raw unescaped header
text fails on the code — `exportCHeader` downloads the return value of
`generateCHeader`, which is the HTML-escaped, span-highlighted text; at the
empty schema with variant name "v" the downloaded payload contains keyword
span markup and is not the raw header. -/
theorem c1_download_contains_markup :
    containsStr "<span class=\"keyword\">" (exportedCHeader [] [] "v").1 = true
    ∧ (exportedCHeader [] [] "v").1 ≠ rawHeader [] [] "v"
    ∧ (exportedCHeader [] [] "v").2 = "v_final_cfg.h" :=
  ⟨by decide, by decide, by decide⟩

/-- C2 counterexample: a value-mapping entry that is null still produces a
Tier-1 `#define` line (here `#define A null`), so the generated header does
not omit null-valued keys. -/
theorem c2_null_key_emits_tier1_line :
    tier1Line [("A", ⟨"number", none, none⟩)] ("A", VNull) = some "#define A null"
    ∧ containsStr "#define A null"
        (rawHeader [("A", ⟨"number", none, none⟩)] [("A", VNull)] "v") = true :=
  ⟨by decide, by decide⟩

/-- C2 (amended): generation handles a null entry without failing, but by
encoding it rather than omitting it — the Tier-1 line is emitted with the
null rendered per declared type (boolean gives 0, string gives "null",
any other type gives the bare text null). -/
theorem c2_amended_null_encoded (s : Schema) (k : String) (se : FieldDesc)
    (hvalid : isValidCIdentifier k = true) (hlk : List.lookup k s = some se) :
    tier1Line s (k, VNull)
      = some (if se.type = "boolean" then "#define " ++ k ++ " " ++ "0"
              else if se.type = "string" then "#define " ++ k ++ " \"" ++ "null" ++ "\""
              else "#define " ++ k ++ " " ++ "null") := by
  unfold tier1Line
  simp only [hvalid, not_true, if_false, hlk]
  by_cases hb : se.type = "boolean"
  · simp [hb, truthy]
  by_cases hs : se.type = "string"
  · simp [hb, hs, show cEscape (valueText VNull) = "null" from by decide]
  · simp [hb, hs, valueText]

theorem c2_amended_null_encoded_witness :
    tier1Line [("A", ⟨"number", none, none⟩)] ("A", VNull)
      = some (if ("number" : String) = "boolean" then "#define " ++ "A" ++ " " ++ "0"
              else if ("number" : String) = "string" then
                "#define " ++ "A" ++ " \"" ++ "null" ++ "\""
              else "#define " ++ "A" ++ " " ++ "null") :=
  c2_amended_null_encoded [("A", ⟨"number", none, none⟩)] "A" ⟨"number", none, none⟩
    (by decide) (by decide)

theorem tier1Line_eq_none_of_skippable {s : Schema} {kv : String × Value}
    (h : (isValidCIdentifier kv.1 && (List.lookup kv.1 s).isSome) = false) :
    tier1Line s kv = none := by
  unfold tier1Line
  cases hv : isValidCIdentifier kv.1 with
  | false => simp [hv]
  | true =>
    rw [hv] at h
    simp only [Bool.true_and] at h
    cases hlk : List.lookup kv.1 s with
    | some se => rw [hlk] at h; simp at h
    | none => simp [hv, hlk]

theorem filterMap_filter_eq_of_none {α β : Type} (f : α → Option β) (p : α → Bool)
    (l : List α) (h : ∀ x, p x = false → f x = none) :
    l.filterMap f = (l.filter p).filterMap f := by
  induction l with
  | nil => rfl
  | cons x xs ih =>
    cases hp : p x with
    | false => simp [List.filter_cons, hp, List.filterMap_cons, h x hp, ih]
    | true => simp [List.filter_cons, hp, List.filterMap_cons, ih]

/-- C6: skippable keys are never fatal — the generated lines are unchanged
when the value mapping is restricted to its well-formed keys (valid C
identifier with a schema descriptor), i.e. malformed keys contribute
nothing and all well-formed keys are still emitted; and for the value
mapping containing only `bad-key`, no part of the header mentions it. -/
theorem c6_skippable_keys_omitted :
    (∀ (s : Schema) (v : ValueMap) (n : String),
        rawLines s v n
          = rawLines s (List.filter (fun kv =>
              isValidCIdentifier kv.1 && (List.lookup kv.1 s).isSome) v) n)
    ∧ containsStr "bad-key" (rawHeader [] [("bad-key", VNum 5)] "v") = false := by
  constructor
  · intro s v n
    unfold rawLines
    rw [filterMap_filter_eq_of_none (tier1Line s) _ v
      (fun kv hkv => tier1Line_eq_none_of_skippable hkv)]
  · decide

theorem tier1Line_not_ifndef {s : Schema} {kv : String × Value} {str : String}
    (h : tier1Line s kv = some str) : isPre "#ifndef ".data str.data = false := by
  unfold tier1Line at h
  by_cases hv : isValidCIdentifier kv.1
  · cases hlk : List.lookup kv.1 s with
    | none => simp [hv, hlk] at h
    | some se =>
      simp only [hv, not_true, if_false, hlk] at h
      split at h
      · injection h with h'; subst h'; rfl
      · split at h
        · injection h with h'; subst h'; rfl
        · injection h with h'; subst h'; rfl
  · simp [hv] at h

/-- C4: Tier 1 precedes Tier 2 — for the schema `{A: number, default 1}`
with value mapping `{A: 2}` the raw header text places `#define A 2` before
the `#ifndef A` block whose internal default is `1` (full text pinned,
lines joined by newlines); and in general the emitted line list is the
preamble, then all Tier-1 lines, then the Tier-2 region, with no
`#ifndef`-line anywhere before the Tier-2 region. -/
theorem c4_tier_ordering :
    (rawHeader [("A", ⟨"number", some (VNum 1), none⟩)] [("A", VNum 2)] "v"
       = "#pragma once\n// Auto-generated header from Config Editor\n// Variant: v\n\n// Variant-specific defines (highest priority)\n#define A 2\n\n// Common defaults (only applied if not defined by variant)\n#ifndef A\n#define A 1\n#endif")
    ∧ (∀ (s : Schema) (v : ValueMap) (n : String),
        rawLines s v n
          = (headerPreamble n ++ List.filterMap (tier1Line s) v ++ tier2Header)
            ++ (s.map (fun kd => tier2Block kd.1 kd.2)).flatten)
    ∧ (∀ (s : Schema) (v : ValueMap) (n : String),
        ∀ str ∈ headerPreamble n ++ List.filterMap (tier1Line s) v ++ tier2Header,
          isPre "#ifndef ".data str.data = false) := by
  refine ⟨by decide, fun s v n => by simp [rawLines, List.append_assoc],
    fun s v n str hstr => ?_⟩
  rcases List.mem_append.mp hstr with h | h
  · rcases List.mem_append.mp h with h | h
    · simp only [headerPreamble, List.mem_cons, List.not_mem_nil, or_false] at h
      rcases h with rfl | rfl | rfl | rfl | rfl
      · rfl
      · rfl
      · rfl
      · rfl
      · rfl
    · obtain ⟨kv, _, hline⟩ := List.mem_filterMap.mp h
      exact tier1Line_not_ifndef hline
  · simp only [tier2Header, List.mem_cons, List.not_mem_nil, or_false] at h
    rcases h with rfl | rfl
    · rfl
    · rfl

theorem c4_tier_ordering_witness :
    isPre "#ifndef ".data ("#pragma once" : String).data = false :=
  c4_tier_ordering.2.2 [] [] "v" "#pragma once" (by decide)

/-- C7: falsy defaults are preserved in Tier 2 — the concrete boolean-false
schema yields the guarded `#ifndef B` / `#define B 0` / `#endif` block, and
in general every schema entry with a valid identifier and a declared
default (falsy included) contributes its three-line guarded block as a
contiguous segment of the generated lines. -/
theorem c7_falsy_default_block (s : Schema) (v : ValueMap) (n : String)
    (k : String) (se : FieldDesc) (d : Value)
    (hmem : (k, se) ∈ s) (hd : se.default = some d) (hk : isValidCIdentifier k = true) :
    (containsStr "#ifndef B\n#define B 0\n#endif"
        (rawHeader [("B", ⟨"boolean", some (VBool false), none⟩)] [] "v") = true)
    ∧ (∃ defLine, tier2Block k se = ["#ifndef " ++ k, defLine, "#endif"])
    ∧ (∃ pre post, rawLines s v n = pre ++ tier2Block k se ++ post) := by
  refine ⟨by decide, ?_, ?_⟩
  · unfold tier2Block
    rw [hd]
    simp only [hk, not_true, if_false]
    exact ⟨_, rfl⟩
  · obtain ⟨l1, l2, rfl⟩ := List.append_of_mem hmem
    refine ⟨headerPreamble n ++ List.filterMap (tier1Line (l1 ++ (k, se) :: l2)) v
        ++ tier2Header ++ (l1.map (fun kd => tier2Block kd.1 kd.2)).flatten,
      ((l2.map (fun kd => tier2Block kd.1 kd.2))).flatten, ?_⟩
    simp [rawLines, List.map_append, List.flatten_append, List.append_assoc]

theorem c7_falsy_default_block_witness :
    (containsStr "#ifndef B\n#define B 0\n#endif"
        (rawHeader [("B", ⟨"boolean", some (VBool false), none⟩)] [] "v") = true)
    ∧ (∃ defLine, tier2Block "B" ⟨"boolean", some (VBool false), none⟩
        = ["#ifndef " ++ "B", defLine, "#endif"])
    ∧ (∃ pre post, rawLines [("B", ⟨"boolean", some (VBool false), none⟩)] [] "v"
        = pre ++ tier2Block "B" ⟨"boolean", some (VBool false), none⟩ ++ post) :=
  c7_falsy_default_block [("B", ⟨"boolean", some (VBool false), none⟩)] [] "v"
    "B" ⟨"boolean", some (VBool false), none⟩ (VBool false)
    (by decide) (by decide) (by decide)

/-- C8 counterexample: a `#define` in the middle of a line is wrapped in a
keyword span by the highlighter, so the keywords are not matched only at
the start of a line. -/
theorem c8_midline_keyword_wrapped :
    highlight "x #define y" = "x <span class=\"keyword\">#define</span> y"
    ∧ containsStr "<span class=\"keyword\">#define</span>" (highlight "x #define y") = true :=
  ⟨by decide, by decide⟩

theorem keywordPass_cons_ne {x : Char} (hx : x ≠ '#') (l : List Char) :
    keywordPass (x :: l) = x :: keywordPass l := by
  rw [keywordPass.eq_def]
  split <;> simp_all

theorem keywordPass_append_of_base {kw b : List Char}
    (hbase : keywordPass (kw ++ b)
      = keywordSpanOpen ++ kw ++ spanClose ++ keywordPass b) :
    ∀ a, '#' ∉ a →
      keywordPass (a ++ kw ++ b)
        = a ++ (keywordSpanOpen ++ kw ++ spanClose ++ keywordPass b) := by
  intro a
  induction a with
  | nil => intro _; simpa using hbase
  | cons x a' ih =>
    intro ha
    have hx : x ≠ '#' := fun e => ha (by simp [e])
    simp only [List.cons_append]
    rw [keywordPass_cons_ne hx, ih (fun e => ha (List.mem_cons_of_mem _ e))]

/-- C8 (amended): the keyword substitution is not anchored to line starts —
each of the four preprocessor keywords is wrapped in a keyword span
wherever it occurs, in particular after an arbitrary `#`-free prefix
anywhere in a line. -/
theorem c8_keyword_wrapped_anywhere (kw : List Char)
    (hkw : kw ∈ ["#pragma".data, "#define".data, "#ifndef".data, "#endif".data])
    (a b : List Char) (ha : '#' ∉ a) :
    keywordPass (a ++ kw ++ b)
      = a ++ (keywordSpanOpen ++ kw ++ spanClose ++ keywordPass b) := by
  simp only [List.mem_cons, List.not_mem_nil, or_false] at hkw
  rcases hkw with rfl | rfl | rfl | rfl
  · exact keywordPass_append_of_base rfl a ha
  · exact keywordPass_append_of_base rfl a ha
  · exact keywordPass_append_of_base rfl a ha
  · exact keywordPass_append_of_base rfl a ha

theorem c8_keyword_wrapped_anywhere_witness :
    keywordPass ("x ".data ++ "#define".data ++ " y".data)
      = "x ".data ++ (keywordSpanOpen ++ "#define".data ++ spanClose
          ++ keywordPass " y".data) :=
  c8_keyword_wrapped_anywhere "#define".data (by decide) "x ".data " y".data (by decide)

/-! ### Infrastructure for C3: highlighting only inserts span tags -/

/-- The five fixed markup fragments the four substitutions can insert. -/
def hlTags : List (List Char) :=
  [commentSpanOpen, keywordSpanOpen, stringSpanOpen, numberSpanOpen, spanClose]

/-- `TagIns s t` holds when `t` is `s` with some occurrences of the fixed
markup fragments of `hlTags` inserted; the base characters of `s` are kept
verbatim and in order. -/
inductive TagIns : List Char → List Char → Prop where
  | nil : TagIns [] []
  | keep (c : Char) {s t : List Char} : TagIns s t → TagIns (c :: s) (c :: t)
  | ins {tg s t : List Char} : tg ∈ hlTags → TagIns s t → TagIns s (tg ++ t)

theorem tagIns_keep_append (x : List Char) {s t : List Char} (h : TagIns s t) :
    TagIns (x ++ s) (x ++ t) := by
  induction x with
  | nil => exact h
  | cons c xs ih => exact TagIns.keep c ih

theorem tagIns_commentGo (m : Bool) (s : List Char) : TagIns s (commentGo m s) := by
  induction m, s using commentGo.induct with
  | case1 => exact TagIns.nil
  | case2 rest ih =>
    exact TagIns.ins (by simp [hlTags]) (TagIns.keep _ (TagIns.keep _ ih))
  | case3 c rest hne ih =>
    have e : commentGo false (c :: rest) = c :: commentGo false rest := by
      rw [commentGo.eq_def]
      split <;> simp_all
    rw [e]
    exact TagIns.keep c ih
  | case4 =>
    simpa using TagIns.ins (show spanClose ∈ hlTags by simp [hlTags]) TagIns.nil
  | case5 rest ih => exact TagIns.ins (by simp [hlTags]) (TagIns.keep _ ih)
  | case6 c rest hne ih =>
    have e : commentGo true (c :: rest) = c :: commentGo true rest := by
      rw [commentGo.eq_def]
      split <;> simp_all
    rw [e]
    exact TagIns.keep c ih

theorem tagIns_kw_step (kw rest : List Char) (h : TagIns rest (keywordPass rest)) :
    TagIns (kw ++ rest) (keywordSpanOpen ++ kw ++ spanClose ++ keywordPass rest) := by
  have h1 : TagIns rest (spanClose ++ keywordPass rest) :=
    TagIns.ins (by simp [hlTags]) h
  have h2 : TagIns (kw ++ rest) (kw ++ (spanClose ++ keywordPass rest)) :=
    tagIns_keep_append _ h1
  have h3 : TagIns (kw ++ rest)
      (keywordSpanOpen ++ (kw ++ (spanClose ++ keywordPass rest))) :=
    TagIns.ins (by simp [hlTags]) h2
  have e : keywordSpanOpen ++ (kw ++ (spanClose ++ keywordPass rest))
      = keywordSpanOpen ++ kw ++ spanClose ++ keywordPass rest := by
    simp [List.append_assoc]
  exact e ▸ h3

theorem tagIns_keywordPass (s : List Char) : TagIns s (keywordPass s) := by
  induction s using keywordPass.induct with
  | case1 => exact TagIns.nil
  | case2 rest ih => exact tagIns_kw_step "#pragma".data rest ih
  | case3 rest ih => exact tagIns_kw_step "#define".data rest ih
  | case4 rest ih => exact tagIns_kw_step "#ifndef".data rest ih
  | case5 rest ih => exact tagIns_kw_step "#endif".data rest ih
  | case6 c rest h1 h2 h3 h4 ih =>
    have e : keywordPass (c :: rest) = c :: keywordPass rest := by
      rw [keywordPass.eq_def]
      split <;> simp_all
    rw [e]
    exact TagIns.keep c ih

theorem findClose_structure : ∀ (l b a : List Char), findClose l = some (b, a) →
    l = b ++ "&quot;".data ++ a ∧ '&' ∉ b := by
  intro l
  induction l with
  | nil => intro b a h; simp [findClose] at h
  | cons c rest ih =>
    intro b a h
    rw [show findClose (c :: rest)
          = (if c = '&' then
              (if isPre "quot;".data rest then some ([], rest.drop 5) else none)
            else
              match findClose rest with
              | some (b, a) => some (c :: b, a)
              | none => none) from rfl] at h
    by_cases hc : c = '&'
    · rw [if_pos hc] at h
      by_cases hq : isPre "quot;".data rest = true
      · rw [if_pos hq] at h
        simp only [Option.some.injEq, Prod.mk.injEq] at h
        obtain ⟨rfl, rfl⟩ := h
        obtain ⟨r', rfl⟩ := (isPre_iff_append _ _).mp hq
        subst hc
        exact ⟨rfl, by simp⟩
      · rw [if_neg hq] at h
        exact absurd h (by simp)
    · rw [if_neg hc] at h
      cases hfc : findClose rest with
      | none => rw [hfc] at h; simp at h
      | some ba =>
        obtain ⟨b', a'⟩ := ba
        rw [hfc] at h
        simp only [Option.some.injEq, Prod.mk.injEq] at h
        obtain ⟨rfl, rfl⟩ := h
        obtain ⟨hr, hbm⟩ := ih b' a' hfc
        constructor
        · rw [hr]; simp
        · intro hm
          rcases List.mem_cons.mp hm with rfl | hm'
          · exact hc rfl
          · exact hbm hm'

theorem stringGo_skip_cons {x : Char} (hx : x ≠ '&') (l : List Char) :
    stringGo true (x :: l) = stringGo true l := by
  rw [stringGo.eq_def]
  split <;> simp_all

theorem stringGo_skip_through {b : List Char} (hb : '&' ∉ b) (a : List Char) :
    stringGo true (b ++ "&quot;".data ++ a) = stringGo false a := by
  induction b with
  | nil => rfl
  | cons x b' ih =>
    have hx : x ≠ '&' := fun e => hb (by simp [e])
    have e : (x :: b') ++ "&quot;".data ++ a = x :: (b' ++ "&quot;".data ++ a) := by simp
    rw [e, stringGo_skip_cons hx, ih (fun e => hb (List.mem_cons_of_mem _ e))]

theorem stringGo_cons_plain {c : Char} {rest : List Char}
    (h : ¬ isPre "&quot;".data (c :: rest) = true) :
    stringGo false (c :: rest) = c :: stringGo false rest := by
  rw [stringGo.eq_def]
  split <;> simp_all [isPre]

theorem tagIns_stringGo_false : ∀ (n : Nat) (s : List Char), s.length ≤ n →
    TagIns s (stringGo false s) := by
  intro n
  induction n with
  | zero =>
    intro s hs
    have h0 : s = [] := List.length_eq_zero.mp (Nat.le_zero.mp hs)
    subst h0
    exact TagIns.nil
  | succ n ih =>
    intro s hs
    by_cases hq : isPre "&quot;".data s = true
    · obtain ⟨rest, rfl⟩ := (isPre_iff_append _ _).mp hq
      cases hfc : findClose rest with
      | none =>
        have e : stringGo false ("&quot;".data ++ rest)
            = '&' :: 'q' :: 'u' :: 'o' :: 't' :: ';' :: stringGo false rest := by
          rw [show stringGo false ("&quot;".data ++ rest)
                = (match findClose rest with
                   | some (b, _) => stringSpanOpen ++ "&quot;".data ++ b ++ "&quot;".data
                       ++ spanClose ++ stringGo true rest
                   | none => '&' :: 'q' :: 'u' :: 'o' :: 't' :: ';' :: stringGo false rest)
              from rfl, hfc]
        rw [e]
        have hlen : rest.length ≤ n := by simp [List.length_append] at hs; omega
        exact tagIns_keep_append "&quot;".data (ih rest hlen)
      | some ba =>
        obtain ⟨b, a⟩ := ba
        obtain ⟨hr, hb⟩ := findClose_structure rest b a hfc
        have e : stringGo false ("&quot;".data ++ rest)
            = stringSpanOpen ++ "&quot;".data ++ b ++ "&quot;".data ++ spanClose
              ++ stringGo true rest := by
          rw [show stringGo false ("&quot;".data ++ rest)
                = (match findClose rest with
                   | some (b, _) => stringSpanOpen ++ "&quot;".data ++ b ++ "&quot;".data
                       ++ spanClose ++ stringGo true rest
                   | none => '&' :: 'q' :: 'u' :: 'o' :: 't' :: ';' :: stringGo false rest)
              from rfl, hfc]
        rw [e, hr, stringGo_skip_through hb a]
        have hlen : a.length ≤ n := by
          rw [hr] at hs
          simp [List.length_append] at hs
          omega
        have t1 : TagIns a (spanClose ++ stringGo false a) :=
          TagIns.ins (by simp [hlTags]) (ih a hlen)
        have t2 := tagIns_keep_append ("&quot;".data ++ b ++ "&quot;".data) t1
        have t3 : TagIns (("&quot;".data ++ b ++ "&quot;".data) ++ a)
            (stringSpanOpen ++ (("&quot;".data ++ b ++ "&quot;".data)
              ++ (spanClose ++ stringGo false a))) :=
          TagIns.ins (by simp [hlTags]) t2
        have einp : ("&quot;".data ++ b ++ "&quot;".data) ++ a
            = "&quot;".data ++ (b ++ "&quot;".data ++ a) := by simp
        have eout : stringSpanOpen ++ (("&quot;".data ++ b ++ "&quot;".data)
              ++ (spanClose ++ stringGo false a))
            = stringSpanOpen ++ "&quot;".data ++ b ++ "&quot;".data ++ spanClose
              ++ stringGo false a := by simp
        rw [einp, eout] at t3
        exact t3
    · cases s with
      | nil => exact TagIns.nil
      | cons c rest =>
        rw [stringGo_cons_plain hq]
        have hlen : rest.length ≤ n := by simp at hs; omega
        exact TagIns.keep c (ih rest hlen)

theorem tagIns_stringPass (s : List Char) : TagIns s (stringGo false s) :=
  tagIns_stringGo_false s.length s le_rfl

theorem length_dropWhile_le_self (p : Char → Bool) (l : List Char) :
    (l.dropWhile p).length ≤ l.length := by
  induction l with
  | nil => simp
  | cons x xs ih =>
    by_cases hx : p x
    · rw [List.dropWhile_cons_of_pos hx]
      exact le_trans ih (by simp)
    · rw [List.dropWhile_cons_of_neg hx]

theorem numGo_skip_eq (l : List Char) :
    numGo NMode.skip l = numGo (NMode.norm true) (l.dropWhile Char.isDigit) := by
  induction l with
  | nil => rfl
  | cons d r ih =>
    by_cases hd : d.isDigit
    · rw [show numGo NMode.skip (d :: r)
            = (if d.isDigit then numGo NMode.skip r
               else d :: numGo (NMode.norm (isWordChar d)) r) from rfl,
          if_pos hd, List.dropWhile_cons_of_pos hd]
      exact ih
    · rw [show numGo NMode.skip (d :: r)
            = (if d.isDigit then numGo NMode.skip r
               else d :: numGo (NMode.norm (isWordChar d)) r) from rfl,
          if_neg hd, List.dropWhile_cons_of_neg hd]
      rw [show numGo (NMode.norm true) (d :: r)
            = (if d.isDigit && !true then
                (if boundaryAfter (r.dropWhile Char.isDigit) then
                  numberSpanOpen ++ d :: r.takeWhile Char.isDigit ++ spanClose
                    ++ numGo NMode.skip r
                 else d :: numGo (NMode.norm true) r)
              else d :: numGo (NMode.norm (isWordChar d)) r) from rfl]
      simp

theorem tagIns_numGo_norm : ∀ (n : Nat) (p : Bool) (s : List Char), s.length ≤ n →
    TagIns s (numGo (NMode.norm p) s) := by
  intro n
  induction n with
  | zero =>
    intro p s hs
    have h0 : s = [] := List.length_eq_zero.mp (Nat.le_zero.mp hs)
    subst h0
    exact TagIns.nil
  | succ n ih =>
    intro p s hs
    cases s with
    | nil => exact TagIns.nil
    | cons c rest =>
      rw [show numGo (NMode.norm p) (c :: rest)
            = (if c.isDigit && !p then
                (if boundaryAfter (rest.dropWhile Char.isDigit) then
                  numberSpanOpen ++ c :: rest.takeWhile Char.isDigit ++ spanClose
                    ++ numGo NMode.skip rest
                 else c :: numGo (NMode.norm true) rest)
              else c :: numGo (NMode.norm (isWordChar c)) rest) from rfl]
      have hrest : rest.length ≤ n := by simp at hs; omega
      by_cases h1 : (c.isDigit && !p) = true
      · rw [if_pos h1]
        by_cases h2 : boundaryAfter (rest.dropWhile Char.isDigit) = true
        · rw [if_pos h2, numGo_skip_eq]
          have hsplit : c :: rest
              = (c :: rest.takeWhile Char.isDigit) ++ rest.dropWhile Char.isDigit := by
            rw [List.cons_append, List.takeWhile_append_dropWhile]
          rw [hsplit]
          have hdlen : (rest.dropWhile Char.isDigit).length ≤ n :=
            le_trans (length_dropWhile_le_self _ _) hrest
          have t1 : TagIns (rest.dropWhile Char.isDigit)
              (spanClose ++ numGo (NMode.norm true) (rest.dropWhile Char.isDigit)) :=
            TagIns.ins (by simp [hlTags]) (ih true _ hdlen)
          have t2 := tagIns_keep_append (c :: rest.takeWhile Char.isDigit) t1
          have t3 : TagIns ((c :: rest.takeWhile Char.isDigit) ++ rest.dropWhile Char.isDigit)
              (numberSpanOpen ++ ((c :: rest.takeWhile Char.isDigit)
                ++ (spanClose ++ numGo (NMode.norm true) (rest.dropWhile Char.isDigit)))) :=
            TagIns.ins (by simp [hlTags]) t2
          have eout : numberSpanOpen ++ ((c :: rest.takeWhile Char.isDigit)
                ++ (spanClose ++ numGo (NMode.norm true) (rest.dropWhile Char.isDigit)))
              = numberSpanOpen ++ c :: rest.takeWhile Char.isDigit ++ spanClose
                ++ numGo (NMode.norm true) (rest.dropWhile Char.isDigit) := by
            simp
          rw [eout] at t3
          exact t3
        · rw [if_neg h2]
          exact TagIns.keep c (ih true rest hrest)
      · rw [if_neg h1]
        exact TagIns.keep c (ih _ rest hrest)

theorem tagIns_numberPass (s : List Char) : TagIns s (numberPass s) :=
  tagIns_numGo_norm s.length false s le_rfl

theorem hlTags_ne_nil : ∀ tg ∈ hlTags, tg ≠ [] := by decide

theorem hlTags_head_lt : ∀ tg ∈ hlTags, tg.head? = some '<' := by decide

theorem tagIns_head_inv {s u : List Char} {x : Char}
    (h : TagIns s (x :: u)) (hx : x ≠ '<') :
    ∃ s', s = x :: s' ∧ TagIns s' u := by
  revert h
  generalize he : (x :: u) = w
  intro h
  cases h with
  | nil => exact absurd he (List.cons_ne_nil _ _)
  | keep c h' =>
    injection he with h1 h2
    subst h1
    subst h2
    exact ⟨_, rfl, h'⟩
  | ins htg h' =>
    rename_i tg t₀
    cases tg with
    | nil => exact absurd rfl (hlTags_ne_nil [] htg)
    | cons y tg' =>
      exfalso
      apply hx
      injection he with h1 h2
      have hy : y = '<' := by
        have hh := hlTags_head_lt _ htg
        simpa using hh
      rw [h1, hy]

theorem tagIns_preserves_noSC {s t : List Char} (h : TagIns s t)
    (hs : containsSub "<sc".data s = false) : containsSub "<sc".data t = false := by
  induction h with
  | nil => exact hs
  | keep c h' ih =>
    rename_i s' t'
    rw [containsSub_cons] at hs
    obtain ⟨h1, h2⟩ := Bool.or_eq_false_iff.mp hs
    rw [containsSub_cons]
    apply Bool.or_eq_false_iff.mpr
    refine ⟨?_, ih h2⟩
    by_cases hc : c = '<'
    · subst hc
      have h1' : isPre ['s', 'c'] s' = false := by
        have e : isPre "<sc".data ('<' :: s') = isPre ['s', 'c'] s' := by
          rw [show isPre "<sc".data ('<' :: s')
                = (('<' == '<') && isPre ['s', 'c'] s') from rfl]
          simp
        rw [← e]
        exact h1
      by_cases hsc : isPre ['s', 'c'] t' = true
      · exfalso
        obtain ⟨v, rfl⟩ := (isPre_iff_append _ _).mp hsc
        obtain ⟨s1, rfl, hrest⟩ := tagIns_head_inv h' (by decide)
        obtain ⟨s2, rfl, _⟩ := tagIns_head_inv hrest (by decide)
        simp [isPre] at h1'
      · rw [show isPre "<sc".data ('<' :: t')
              = (('<' == '<') && isPre ['s', 'c'] t') from rfl]
        simp only [Bool.not_eq_true] at hsc
        simp [hsc]
    · rw [show isPre "<sc".data (c :: t')
            = (('<' == c) && isPre ['s', 'c'] t') from rfl]
      rw [beq_eq_false_iff_ne.mpr (fun e => hc e.symm), Bool.false_and]
  | ins htg h' ih =>
    rename_i tg s' t'
    have habs : containsSub "<sc".data (tg ++ t') = containsSub "<sc".data t' := by
      simp only [hlTags, List.mem_cons, List.not_mem_nil, or_false] at htg
      rcases htg with rfl | rfl | rfl | rfl | rfl
      · rfl
      · rfl
      · rfl
      · rfl
      · rfl
    rw [habs]
    exact ih hs

theorem containsSub_sc_of_no_lt {e : List Char} (he : '<' ∉ e) :
    containsSub "<sc".data e = false := by
  induction e with
  | nil => rfl
  | cons c r ih =>
    rw [containsSub_cons]
    apply Bool.or_eq_false_iff.mpr
    constructor
    · rw [show isPre "<sc".data (c :: r)
            = (('<' == c) && isPre ['s', 'c'] r) from rfl]
      rw [beq_eq_false_iff_ne.mpr
        (fun e2 => he (by rw [← e2] at *; exact List.mem_cons_self _ _)), Bool.false_and]
    · exact ih (fun hm => he (List.mem_cons_of_mem _ hm))

/-- C3: the highlighter output is safe to insert as HTML — the escaping pass
removes every raw `<`, `>`, `"`, `'` from the input, and for every input
the final highlighted text contains no `<sc` and hence no literal
`<script>` substring (the only `<` characters come from the inserted span
tags). -/
theorem c3_highlight_injection_safe (s : List Char) :
    ('<' ∉ escapeHtmlL s ∧ '>' ∉ escapeHtmlL s ∧ '"' ∉ escapeHtmlL s ∧ '\'' ∉ escapeHtmlL s)
    ∧ containsSub "<sc".data (highlightL s) = false
    ∧ containsSub "<script>".data (highlightL s) = false := by
  have hd := escapeHtmlL_no_danger s
  have hlt : '<' ∉ escapeHtmlL s := fun hm => hd _ hm (Or.inl rfl)
  have h0 : containsSub "<sc".data (escapeHtmlL s) = false := containsSub_sc_of_no_lt hlt
  have h1 := tagIns_preserves_noSC (tagIns_commentGo false (escapeHtmlL s)) h0
  have h2 := tagIns_preserves_noSC (tagIns_keywordPass _) h1
  have h3 := tagIns_preserves_noSC (tagIns_stringPass _) h2
  have h4 := tagIns_preserves_noSC (tagIns_numberPass _) h3
  have h4' : containsSub "<sc".data (highlightL s) = false := h4
  refine ⟨⟨hlt, fun hm => hd _ hm (Or.inr (Or.inl rfl)),
    fun hm => hd _ hm (Or.inr (Or.inr (Or.inl rfl))),
    fun hm => hd _ hm (Or.inr (Or.inr (Or.inr rfl)))⟩, h4', ?_⟩
  cases hsc : containsSub "<script>".data (highlightL s) with
  | false => rfl
  | true =>
    have hmono := containsSub_mono_pat
      (show containsSub ("<sc".data ++ "ript>".data) (highlightL s) = true from hsc)
    rw [hmono] at h4'
    exact Bool.noConfusion h4'

/-- C9: the variant name is HTML-escaped twice — any `&` in the variant name
appears as `&amp;amp;` after the two escaping passes; the third raw-header
line is the comment built from the already-escaped variant name, and the
text returned by `generateCHeader` (used for both the preview and the
downloaded file) contains the double-escaped form. -/
theorem c9_variant_name_double_escaped :
    (∀ name : List Char, '&' ∈ name →
        containsSub "&amp;amp;".data (escapeHtmlL (escapeHtmlL name)) = true)
    ∧ (∀ (s : Schema) (v : ValueMap) (n : String),
        (rawLines s v n)[2]?
          = some ("// Variant: " ++ escapeHtml (if n = "" then "variant" else n)))
    ∧ containsStr "&amp;amp;" (generateCHeader [] [] "a&b") = true := by
  refine ⟨fun name hn => containsSub_dblamp_of_mem hn, fun s v n => rfl, by decide⟩

theorem c9_variant_name_double_escaped_witness :
    containsSub "&amp;amp;".data (escapeHtmlL (escapeHtmlL "a&b".data)) = true :=
  c9_variant_name_double_escaped.1 "a&b".data (by decide)

theorem numGo_splits_apos_entity : ∀ (t : List Char) (m : NMode),
    containsSub "&#39;".data t = true →
    containsSub "&#<span class=\"number\">39</span>;".data (numGo m t) = true := by
  intro t
  induction t with
  | nil => intro m h; exact absurd h (by decide)
  | cons c rest ih =>
    intro m hocc
    by_cases hpre : isPre "&#39;".data (c :: rest) = true
    · obtain ⟨b, hb⟩ := (isPre_iff_append _ _).mp hpre
      injection hb with h1 h2
      subst h1
      subst h2
      cases m with
      | skip =>
        show containsSub "&#<span class=\"number\">39</span>;".data
          (numGo NMode.skip ('&' :: '#' :: '3' :: '9' :: ';' :: b)) = true
        rw [show numGo NMode.skip ('&' :: '#' :: '3' :: '9' :: ';' :: b)
              = "&#<span class=\"number\">39</span>;".data ++ numGo (NMode.norm false) b
            from rfl]
        exact containsSub_of_isPre (isPre_append_self _ _)
      | norm p =>
        show containsSub "&#<span class=\"number\">39</span>;".data
          (numGo (NMode.norm p) ('&' :: '#' :: '3' :: '9' :: ';' :: b)) = true
        rw [show numGo (NMode.norm p) ('&' :: '#' :: '3' :: '9' :: ';' :: b)
              = "&#<span class=\"number\">39</span>;".data ++ numGo (NMode.norm false) b
            from rfl]
        exact containsSub_of_isPre (isPre_append_self _ _)
    · have hocc' : containsSub "&#39;".data rest = true := by
        rw [containsSub_cons] at hocc
        rcases Bool.or_eq_true_iff.mp hocc with h | h
        · exact absurd h hpre
        · exact h
      cases m with
      | skip =>
        rw [show numGo NMode.skip (c :: rest)
              = (if c.isDigit then numGo NMode.skip rest
                 else c :: numGo (NMode.norm (isWordChar c)) rest) from rfl]
        by_cases hd : c.isDigit = true
        · rw [if_pos hd]
          exact ih _ hocc'
        · rw [if_neg hd, containsSub_cons]
          rw [ih (NMode.norm (isWordChar c)) hocc']
          simp
      | norm p =>
        rw [show numGo (NMode.norm p) (c :: rest)
              = (if c.isDigit && !p then
                  (if boundaryAfter (rest.dropWhile Char.isDigit) then
                    numberSpanOpen ++ c :: rest.takeWhile Char.isDigit ++ spanClose
                      ++ numGo NMode.skip rest
                   else c :: numGo (NMode.norm true) rest)
                else c :: numGo (NMode.norm (isWordChar c)) rest) from rfl]
        by_cases h1 : (c.isDigit && !p) = true
        · rw [if_pos h1]
          by_cases h2 : boundaryAfter (rest.dropWhile Char.isDigit) = true
          · rw [if_pos h2]
            exact containsSub_append_right _ (ih NMode.skip hocc')
          · rw [if_neg h2, containsSub_cons]
            rw [ih (NMode.norm true) hocc']
            simp
        · rw [if_neg h1, containsSub_cons]
          rw [ih (NMode.norm (isWordChar c)) hocc']
          simp

theorem numGo_norm_true_cons (x : Char) (r : List Char) :
    numGo (NMode.norm true) (x :: r) = x :: numGo (NMode.norm (isWordChar x)) r := by
  rw [show numGo (NMode.norm true) (x :: r)
        = (if x.isDigit && !true then
            (if boundaryAfter (r.dropWhile Char.isDigit) then
              numberSpanOpen ++ x :: r.takeWhile Char.isDigit ++ spanClose
                ++ numGo NMode.skip r
             else x :: numGo (NMode.norm true) r)
          else x :: numGo (NMode.norm (isWordChar x)) r) from rfl]
  simp

theorem numGo_no_39semi : ∀ r : List Char,
    isPre "39;".data (numGo (NMode.norm false) r) = false := by
  intro r
  cases r with
  | nil => rfl
  | cons e rest =>
    rw [show numGo (NMode.norm false) (e :: rest)
          = (if e.isDigit && !false then
              (if boundaryAfter (rest.dropWhile Char.isDigit) then
                numberSpanOpen ++ e :: rest.takeWhile Char.isDigit ++ spanClose
                  ++ numGo NMode.skip rest
               else e :: numGo (NMode.norm true) rest)
            else e :: numGo (NMode.norm (isWordChar e)) rest) from rfl]
    by_cases h1 : (e.isDigit && !false) = true
    · rw [if_pos h1]
      by_cases h2 : boundaryAfter (rest.dropWhile Char.isDigit) = true
      · rw [if_pos h2]
        rfl
      · rw [if_neg h2]
        by_cases he : e = '3'
        · subst he
          cases rest with
          | nil => rfl
          | cons x r2 =>
            rw [numGo_norm_true_cons]
            by_cases hx : x = '9'
            · subst hx
              cases r2 with
              | nil => rfl
              | cons y r3 =>
                rw [show numGo (NMode.norm (isWordChar '9')) (y :: r3)
                      = numGo (NMode.norm true) (y :: r3) from rfl,
                    numGo_norm_true_cons]
                by_cases hy : y = ';'
                · subst hy
                  exfalso
                  apply h2
                  rfl
                · rw [show isPre "39;".data
                        ('3' :: '9' :: y :: numGo (NMode.norm (isWordChar y)) r3)
                        = ((';' : Char) == y && true) from rfl,
                      beq_eq_false_iff_ne.mpr (fun e2 => hy e2.symm), Bool.false_and]
            · rw [show isPre "39;".data
                    ('3' :: x :: numGo (NMode.norm (isWordChar x)) r2)
                    = (('9' : Char) == x
                        && isPre [';'] (numGo (NMode.norm (isWordChar x)) r2)) from rfl,
                  beq_eq_false_iff_ne.mpr (fun e2 => hx e2.symm), Bool.false_and]
        · rw [show isPre "39;".data (e :: numGo (NMode.norm true) rest)
                = (('3' : Char) == e
                    && isPre "9;".data (numGo (NMode.norm true) rest)) from rfl,
              beq_eq_false_iff_ne.mpr (fun e2 => he e2.symm), Bool.false_and]
    · rw [if_neg h1]
      have hed : e.isDigit = false := by simpa using h1
      have he3 : e ≠ '3' := by
        intro e2
        rw [e2] at hed
        exact absurd hed (by decide)
      rw [show isPre "39;".data (e :: numGo (NMode.norm (isWordChar e)) rest)
            = (('3' : Char) == e
                && isPre "9;".data (numGo (NMode.norm (isWordChar e)) rest)) from rfl,
          beq_eq_false_iff_ne.mpr (fun e2 => he3 e2.symm), Bool.false_and]

theorem numGo_no_pound39 : ∀ r : List Char,
    isPre "#39;".data (numGo (NMode.norm false) r) = false := by
  intro r
  cases r with
  | nil => rfl
  | cons d rest =>
    rw [show numGo (NMode.norm false) (d :: rest)
          = (if d.isDigit && !false then
              (if boundaryAfter (rest.dropWhile Char.isDigit) then
                numberSpanOpen ++ d :: rest.takeWhile Char.isDigit ++ spanClose
                  ++ numGo NMode.skip rest
               else d :: numGo (NMode.norm true) rest)
            else d :: numGo (NMode.norm (isWordChar d)) rest) from rfl]
    by_cases h1 : (d.isDigit && !false) = true
    · rw [if_pos h1]
      by_cases h2 : boundaryAfter (rest.dropWhile Char.isDigit) = true
      · rw [if_pos h2]
        rfl
      · rw [if_neg h2]
        have hdd : d.isDigit = true := by simpa using h1
        have hd : d ≠ '#' := by
          intro e2
          rw [e2] at hdd
          exact absurd hdd (by decide)
        rw [show isPre "#39;".data (d :: numGo (NMode.norm true) rest)
              = (('#' : Char) == d
                  && isPre "39;".data (numGo (NMode.norm true) rest)) from rfl,
            beq_eq_false_iff_ne.mpr (fun e2 => hd e2.symm), Bool.false_and]
    · rw [if_neg h1]
      by_cases hd : d = '#'
      · subst hd
        rw [show isPre "#39;".data ('#' :: numGo (NMode.norm (isWordChar '#')) rest)
              = isPre "39;".data (numGo (NMode.norm false) rest) from rfl]
        exact numGo_no_39semi rest
      · rw [show isPre "#39;".data (d :: numGo (NMode.norm (isWordChar d)) rest)
              = (('#' : Char) == d
                  && isPre "39;".data (numGo (NMode.norm (isWordChar d)) rest)) from rfl,
            beq_eq_false_iff_ne.mpr (fun e2 => hd e2.symm), Bool.false_and]

theorem numGo_no_apos_entity : ∀ (t : List Char) (m : NMode),
    containsSub "&#39;".data (numGo m t) = false := by
  intro t
  induction t with
  | nil => intro m; cases m <;> rfl
  | cons c rest ih =>
    intro m
    cases m with
    | skip =>
      rw [show numGo NMode.skip (c :: rest)
            = (if c.isDigit then numGo NMode.skip rest
               else c :: numGo (NMode.norm (isWordChar c)) rest) from rfl]
      by_cases hd : c.isDigit = true
      · rw [if_pos hd]
        exact ih _
      · rw [if_neg hd, containsSub_cons]
        apply Bool.or_eq_false_iff.mpr
        refine ⟨?_, ih _⟩
        by_cases hc : c = '&'
        · subst hc
          rw [show isPre "&#39;".data ('&' :: numGo (NMode.norm (isWordChar '&')) rest)
                = isPre "#39;".data (numGo (NMode.norm false) rest) from rfl]
          exact numGo_no_pound39 rest
        · rw [show isPre "&#39;".data (c :: numGo (NMode.norm (isWordChar c)) rest)
                = (('&' : Char) == c
                    && isPre "#39;".data (numGo (NMode.norm (isWordChar c)) rest)) from rfl,
              beq_eq_false_iff_ne.mpr (fun e2 => hc e2.symm), Bool.false_and]
    | norm p =>
      rw [show numGo (NMode.norm p) (c :: rest)
            = (if c.isDigit && !p then
                (if boundaryAfter (rest.dropWhile Char.isDigit) then
                  numberSpanOpen ++ c :: rest.takeWhile Char.isDigit ++ spanClose
                    ++ numGo NMode.skip rest
                 else c :: numGo (NMode.norm true) rest)
              else c :: numGo (NMode.norm (isWordChar c)) rest) from rfl]
      by_cases h1 : (c.isDigit && !p) = true
      · rw [if_pos h1]
        by_cases h2 : boundaryAfter (rest.dropWhile Char.isDigit) = true
        · rw [if_pos h2]
          rw [containsSub_append_head_skip
            ((numberSpanOpen ++ c :: rest.takeWhile Char.isDigit) ++ spanClose)
            (numGo NMode.skip rest) ?notamp]
          · exact ih _
          case notamp =>
            intro hm
            rcases List.mem_append.mp hm with hm | hm
            · rcases List.mem_append.mp hm with hm | hm
              · exact absurd hm (by decide)
              · rcases List.mem_cons.mp hm with heq | hm'
                · have hdig : c.isDigit = true := by
                    simp only [Bool.and_eq_true] at h1
                    exact h1.1
                  rw [← heq] at hdig
                  exact absurd hdig (by decide)
                · exact absurd (List.mem_takeWhile_imp hm') (by decide)
            · exact absurd hm (by decide)
        · rw [if_neg h2, containsSub_cons]
          apply Bool.or_eq_false_iff.mpr
          refine ⟨?_, ih _⟩
          have hdig : c.isDigit = true := by
            simp only [Bool.and_eq_true] at h1
            exact h1.1
          have hc : c ≠ '&' := by
            intro e2
            rw [e2] at hdig
            exact absurd hdig (by decide)
          rw [show isPre "&#39;".data (c :: numGo (NMode.norm true) rest)
                = (('&' : Char) == c
                    && isPre "#39;".data (numGo (NMode.norm true) rest)) from rfl,
              beq_eq_false_iff_ne.mpr (fun e2 => hc e2.symm), Bool.false_and]
      · rw [if_neg h1, containsSub_cons]
        apply Bool.or_eq_false_iff.mpr
        refine ⟨?_, ih _⟩
        by_cases hc : c = '&'
        · subst hc
          rw [show isPre "&#39;".data ('&' :: numGo (NMode.norm (isWordChar '&')) rest)
                = isPre "#39;".data (numGo (NMode.norm false) rest) from rfl]
          exact numGo_no_pound39 rest
        · rw [show isPre "&#39;".data (c :: numGo (NMode.norm (isWordChar c)) rest)
                = (('&' : Char) == c
                    && isPre "#39;".data (numGo (NMode.norm (isWordChar c)) rest)) from rfl,
              beq_eq_false_iff_ne.mpr (fun e2 => hc e2.symm), Bool.false_and]

/-- C10: the number pass splits the apostrophe entity — escaping any input
containing `'` yields the entity `&#39;`; the number substitution turns
every text containing `&#39;` into one containing
`&#<span class="number">39</span>;`, and no `&#39;` survives the number
pass at all, so the apostrophe is no longer represented by a well-formed
entity (end-to-end: `highlight "'"` is exactly the split form). -/
theorem c10_apos_entity_split :
    (highlight "'" = "&#<span class=\"number\">39</span>;")
    ∧ (∀ s : List Char, '\'' ∈ s → containsSub "&#39;".data (escapeHtmlL s) = true)
    ∧ (∀ t : List Char, containsSub "&#39;".data t = true →
        containsSub "&#<span class=\"number\">39</span>;".data (numberPass t) = true)
    ∧ (∀ t : List Char, containsSub "&#39;".data (numberPass t) = false) := by
  refine ⟨by decide, fun s hs => ?_, fun t ht => numGo_splits_apos_entity t _ ht,
    fun t => numGo_no_apos_entity t _⟩
  exact containsSub_escChar_escapeHtmlL hs

theorem c10_apos_entity_split_witness :
    (highlight "'" = "&#<span class=\"number\">39</span>;")
    ∧ containsSub "&#39;".data (escapeHtmlL "'".data) = true
    ∧ containsSub "&#<span class=\"number\">39</span>;".data (numberPass "&#39;".data) = true
    ∧ containsSub "&#39;".data (numberPass "&#39;".data) = false :=
  ⟨c10_apos_entity_split.1, c10_apos_entity_split.2.1 "'".data (by decide),
   c10_apos_entity_split.2.2.1 "&#39;".data (by decide),
   c10_apos_entity_split.2.2.2 "&#39;".data⟩
